import Mathlib

/-!
Verification development for the law-backend repository.

The repository is a Node/Express content backend with two route variants
(a mongoose-backed one and a supabase-backed one) plus a one-shot
migration script that copies MongoDB documents into Supabase tables.
This file gives a shallow embedding in Lean of the pieces the spec's
claims are about:

* the migration normalizer convertDocumentToSupabaseFormat and the
  batched upsert loops of migrateData / migrateSubscribers,
* the startup configuration checks of the migration script and of the
  shared supabase client module,
* the read routes of articleRoutes.js: featured, category, tag, slug,
  in both the mongoose variant and the supabase variant.

Modelling conventions:

* A JavaScript value that may be absent (undefined/null) is an Option.
  JS truthiness for strings (the empty string is falsy) is made explicit
  by the helpers jsOr / jsT / isTruthyStr.
* Date.now() and Math.random() are passed in as explicit Nat parameters
  (now, rand); "new Date()" defaults use the same now parameter.
* Mongo regex tests with the i flag and Postgres ILIKE patterns of the
  form %x% are modelled as case-insensitive substring containment
  (exact for the metacharacter-free strings the routes build).
* The supabase query builder call .contains(tags, [x]) is Postgres
  array containment: exact, case-sensitive element membership.
* A store (database table) is a List of records; the destination
  upsert with onConflict key k and ignoreDuplicates flag is modelled by
  upsertRows, per the documented PostgREST semantics (overwrite the
  conflicting row when ignoreDuplicates is false, skip the incoming row
  when it is true).
-/

/-! ## JavaScript value helpers -/

/-- JS `v || d` for an optional string: absent or empty (falsy) falls to d. -/
def jsOr (v : Option String) (d : String) : String :=
  match v with
  | some s => if s = "" then d else s
  | none => d

/-- JS truthiness projection used in `a || b || null` chains:
an absent or empty string becomes none. -/
def jsT (v : Option String) : Option String :=
  match v with
  | some s => if s = "" then none else some s
  | none => none

/-- Whether an optional string is truthy in JS (present and non-empty). -/
def isTruthyStr (v : Option String) : Bool :=
  v.getD "" ≠ ""

/-! ## String matching helpers -/

/-- Whether the first list of characters is an initial segment of the second. -/
def startsWithL : List Char → List Char → Bool
  | [], _ => true
  | _ :: _, [] => false
  | a :: as, b :: bs => a == b && startsWithL as bs

/-- Whether needle occurs contiguously anywhere in hay. -/
def hasSubstr (hay needle : List Char) : Bool :=
  match hay with
  | [] => needle.isEmpty
  | _ :: t => startsWithL needle hay || hasSubstr t needle

/-- The characters of a string, lower-cased. -/
def lowerChars (s : String) : List Char :=
  s.data.map Char.toLower

/-- Case-insensitive substring containment: models a Mongo regex test
with the i flag, and Postgres ILIKE with a %needle% pattern. -/
def ciContains (hay needle : String) : Bool :=
  hasSubstr (lowerChars hay) (lowerChars needle)

/-- JS `word.charAt(0).toUpperCase() + word.slice(1)` on a word's
characters. -/
def capFirst (w : List Char) : List Char :=
  match w with
  | [] => []
  | c :: cs => c.toUpper :: cs

/-- Split a character list on a separator, JS split semantics: the empty
input yields one empty segment, adjacent separators an empty segment. -/
def splitChars (sep : Char) : List Char → List (List Char)
  | [] => [[]]
  | c :: cs =>
    let r := splitChars sep cs
    if c == sep then [] :: r
    else
      match r with
      | [] => [[c]]
      | w :: ws => (c :: w) :: ws

/-- The slug-to-display formatting used by the category/subcategory routes:
split on hyphens, capitalize each word's first letter, join with spaces. -/
def formatSlug (slug : String) : String :=
  String.mk (List.intercalate [' '] ((splitChars '-' slug.data).map capFirst))

/-- JS endsWith for the one-character suffix s. -/
def endsWithS (s : String) : Bool :=
  s.data.getLast? == some 's'

/-- Singular variant: strip a trailing s if present. -/
def singularOf (name : String) : String :=
  if endsWithS name then String.mk name.data.dropLast else name

/-- Plural variant: append an s if not already ending in one. -/
def pluralOf (name : String) : String :=
  if endsWithS name then name else name ++ "s"

/-! ## JS parseInt (decimal) -/

/-- Decimal value of a digit list. -/
def digitsVal (l : List Char) : Nat :=
  l.foldl (fun a c => a * 10 + (c.toNat - 48)) 0

/-- JS parseInt with radix 10 on a string: skip leading whitespace, read an
optional sign, then the longest digit run; NaN (none) when no digits. -/
def parseIntJS (s : String) : Option Int :=
  let cs := s.data.dropWhile (fun c => c == ' ' || c == '\t' || c == '\n')
  let signed : Int × List Char :=
    match cs with
    | '-' :: r => (-1, r)
    | '+' :: r => (1, r)
    | r => (1, r)
  let ds := signed.2.takeWhile Char.isDigit
  if ds.isEmpty then none else some (signed.1 * (digitsVal ds : Int))

/-! ## Batching -/

/-- Fuel-driven worker for chunking a list into size-k batches. -/
def chunksGo (k : Nat) : Nat → List α → List (List α)
  | _, [] => []
  | 0, _ :: _ => []
  | fuel + 1, x :: xs => (x :: xs).take k :: chunksGo k fuel ((x :: xs).drop k)

/-- The batches `l.slice(i, i + k)` produced by the migration loops
`for (i = 0; i < l.length; i += k)`. -/
def chunks (k : Nat) (l : List α) : List (List α) :=
  chunksGo k l.length l

/-! ## Destination-store upsert semantics -/

section Upsert

variable {ρ κ : Type} [DecidableEq κ]

/-- One row of an upsert with conflict key k: replace the conflicting rows
when ignoreDups is false, skip the incoming row when it is true, append
when there is no conflict. -/
def upsertOne (key : ρ → κ) (ignoreDups : Bool) (st : List ρ) (r : ρ) : List ρ :=
  if st.any (fun x => key x = key r) then
    if ignoreDups then st
    else st.map (fun x => if key x = key r then r else x)
  else st ++ [r]

/-- Upsert a batch of rows left to right. -/
def upsertRows (key : ρ → κ) (ignoreDups : Bool) (st : List ρ) (rows : List ρ) : List ρ :=
  rows.foldl (upsertOne key ignoreDups) st

end Upsert

/-! ## Data model: source documents and destination rows -/

/-- A loosely-typed MongoDB article document; every field may be absent. -/
structure SourceDoc where
  _id : Option String := none
  title : Option String := none
  slug : Option String := none
  author : Option String := none
  published_date : Option Nat := none
  content : Option String := none
  excerpt : Option String := none
  category : Option String := none
  subcategory : Option String := none
  tags : Option (List String) := none
  source : Option String := none
  image : Option String := none
  imageCaption : Option String := none
  image_caption : Option String := none
  imageAlt : Option String := none
  image_alt : Option String := none
  imageCredit : Option String := none
  image_credit : Option String := none
  pdf_url : Option String := none
  author_bio : Option String := none
  is_featured : Option Bool := none
deriving DecidableEq, Repr

/-- A fully-defaulted destination (Supabase) article row. -/
structure DestArticle where
  title : String
  slug : String
  author : String
  published_date : Nat
  content : String
  excerpt : String
  category : String
  subcategory : Option String
  tags : List String
  source : Option String
  image : Option String
  image_caption : Option String
  image_alt : Option String
  image_credit : Option String
  pdf_url : Option String
  author_bio : Option String
  is_featured : Bool
  mongo_id : Option String
deriving DecidableEq, Repr

/-- A loosely-typed MongoDB subscriber document. -/
structure SourceSubscriber where
  _id : Option String := none
  email : Option String := none
  subscribed_at : Option Nat := none
  created_at : Option Nat := none
  status : Option String := none
deriving DecidableEq, Repr

/-- A destination subscriber row. -/
structure DestSubscriber where
  email : Option String
  subscribed_at : Nat
  status : String
  mongo_id : Option String
deriving DecidableEq, Repr

/-! ## The migration normalizer (migrate-to-supabase script) -/

/-- The excerpt expression of the normalizer, verbatim from the source:
`doc.excerpt || doc.content?.substring(0, 150) + '...' || ''`.
When content is absent the optional chain yields undefined, string
concatenation coerces it to the text undefined, and the result is
always non-empty, so the final fallback branch cannot fire. -/
def excerptExpr (doc : SourceDoc) : String :=
  match jsT doc.excerpt with
  | some e => e
  | none =>
    let s := (match doc.content with
              | some c => c.take 150
              | none => "undefined") ++ "..."
    if s = "" then "" else s

/-- convertDocumentToSupabaseFormat from the migration script.
now models Date.now() and the new Date() default; rand models
Math.floor(Math.random() * 1000). -/
def convertDocumentToSupabaseFormat (doc : SourceDoc) (now rand : Nat) : DestArticle :=
  { title := jsOr doc.title ""
  , slug := jsOr doc.slug ("article-" ++ toString now ++ "-" ++ toString rand)
  , author := jsOr doc.author "Unknown"
  , published_date := doc.published_date.getD now
  , content := jsOr doc.content ""
  , excerpt := excerptExpr doc
  , category := jsOr doc.category "Uncategorized"
  , subcategory := jsT doc.subcategory
  , tags := doc.tags.getD []
  , source := jsT doc.source
  , image := jsT doc.image
  , image_caption := (jsT doc.imageCaption).or (jsT doc.image_caption)
  , image_alt := (jsT doc.imageAlt).or (jsT doc.image_alt)
  , image_credit := (jsT doc.imageCredit).or (jsT doc.image_credit)
  , pdf_url := jsT doc.pdf_url
  , author_bio := jsT doc.author_bio
  , is_featured := doc.is_featured.getD false
  , mongo_id := doc._id }

/-- The subscriber normalizer of migrateSubscribers. -/
def convertSubscriber (doc : SourceSubscriber) (now : Nat) : DestSubscriber :=
  { email := doc.email
  , subscribed_at := doc.subscribed_at.getD (doc.created_at.getD now)
  , status := jsOr doc.status "active"
  , mongo_id := doc._id }

/-- The article batch size of migrateData. -/
def articleBatchSize : Nat := 10

/-- The subscriber batch size of migrateSubscribers. -/
def subscriberBatchSize : Nat := 20

/-- The rows migrateData produces from the source articles. -/
def articleRows (docs : List SourceDoc) (now rand : Nat) : List DestArticle :=
  docs.map (fun d => convertDocumentToSupabaseFormat d now rand)

/-- The destination-store effect of one migrateData run: the converted rows,
taken 10 at a time, upserted keyed on slug with ignoreDuplicates false
(overwrite on conflict). -/
def applyArticleMigration (docs : List SourceDoc) (now rand : Nat)
    (store : List DestArticle) : List DestArticle :=
  (chunks articleBatchSize (articleRows docs now rand)).foldl
    (fun st b => upsertRows (fun a => a.slug) false st b) store

/-- The rows migrateSubscribers produces. -/
def subscriberRows (docs : List SourceSubscriber) (now : Nat) : List DestSubscriber :=
  docs.map (fun d => convertSubscriber d now)

/-- The destination-store effect of one migrateSubscribers run: rows taken
20 at a time, upserted keyed on email with ignoreDuplicates true
(skip on conflict). -/
def applySubscriberMigration (docs : List SourceSubscriber) (now : Nat)
    (store : List DestSubscriber) : List DestSubscriber :=
  (chunks subscriberBatchSize (subscriberRows docs now)).foldl
    (fun st b => upsertRows (fun s => s.email) true st b) store

/-- The success/error counting loop of migrateData: each batch is handed to
the store; a rejected upsert adds the full batch size to the error counter
and the loop continues with the next batch. Returns
(successCount, errorCount, batches attempted). upsert takes the
zero-based batch index and the batch. -/
def runBatchCountsGo (upsert : Nat → List DestArticle → Except String Unit)
    (i : Nat) : List (List DestArticle) → Nat × Nat × Nat
  | [] => (0, 0, 0)
  | b :: bs =>
    let rest := runBatchCountsGo upsert (i + 1) bs
    match upsert i b with
    | .ok _ => (b.length + rest.1, rest.2.1, 1 + rest.2.2)
    | .error _ => (rest.1, b.length + rest.2.1, 1 + rest.2.2)

/-- Success/error/attempted counts for a full migrateData run over rows. -/
def runBatchCounts (upsert : Nat → List DestArticle → Except String Unit)
    (rows : List DestArticle) : Nat × Nat × Nat :=
  runBatchCountsGo upsert 0 (chunks articleBatchSize rows)

/-! ## Startup configuration checks -/

/-- The environment variables the startup checks consult. -/
structure Env where
  MONGODB_URI : Option String := none
  SUPABASE_URL : Option String := none
  SUPABASE_KEY : Option String := none
  SUPABASE_SERVICE_KEY : Option String := none
deriving DecidableEq, Repr

/-- Outcome of the startup checks. -/
inductive StartupResult where
  | exited
  | proceededWithWarning
  | proceeded
deriving DecidableEq, Repr

/-- The startup checks on the migration script's path: importing the shared
supabase client module first runs its check (missing SUPABASE_URL or
SUPABASE_KEY calls process.exit(1)); then the script's own checks run:
missing MONGODB_URI calls process.exit(1), while a missing
SUPABASE_SERVICE_KEY only logs a warning and execution continues. -/
def migrationStartup (env : Env) : StartupResult :=
  if ¬ isTruthyStr env.SUPABASE_URL ∨ ¬ isTruthyStr env.SUPABASE_KEY then .exited
  else if ¬ isTruthyStr env.MONGODB_URI then .exited
  else if ¬ isTruthyStr env.SUPABASE_SERVICE_KEY then .proceededWithWarning
  else .proceeded

/-! ## Query resolver: the article store and the read routes -/

/-- An article as stored and served by the read routes; id is the row
identity the supabase variant de-duplicates on. -/
structure Article where
  id : Nat
  title : String
  slug : String
  published_date : Nat
  category : String
  subcategory : Option String
  tags : List String
deriving DecidableEq, Repr

/-- Insert into a list already sorted by published_date descending,
keeping existing elements first on ties. -/
def insertDesc (a : Article) : List Article → List Article
  | [] => [a]
  | b :: bs =>
    if b.published_date < a.published_date then a :: b :: bs
    else b :: insertDesc a bs

/-- The store's order(published_date, descending) / sort(published_date: -1). -/
def sortDesc (l : List Article) : List Article :=
  l.foldr insertDesc []

/-- The limit actually handed to the store by both featured routes:
`parseInt(req.query.limit) || 5` (NaN and 0 are falsy and fall to 5). -/
def featuredLimit (q : Option String) : Int :=
  match q with
  | none => 5
  | some s =>
    match parseIntJS s with
    | none => 5
    | some v => if v = 0 then 5 else v

/-- The featured route (same pipeline in both variants): full store sorted
descending by published_date, first limit rows. The store's limit is
modelled as List.take for the nonnegative limits this claim concerns. -/
def featuredArticles (q : Option String) (store : List Article) : List Article :=
  (sortDesc store).take (featuredLimit q).toNat

/-- The category predicate shared by both category routes: the category
field tested case-insensitively against the formatted name and its
singular and plural variants. -/
def categoryFieldMatch (slug : String) (a : Article) : Bool :=
  let name := formatSlug slug
  ciContains a.category name || ciContains a.category (singularOf name)
    || ciContains a.category (pluralOf name)

/-- The mongoose category route: one find with an $or of the three
category regexes and a tags regex on the formatted name only. -/
def byCategoryMongoose (store : List Article) (slug : String) : List Article :=
  let name := formatSlug slug
  sortDesc (store.filter (fun a =>
    categoryFieldMatch slug a || a.tags.any (fun t => ciContains t name)))

/-- The push-if-id-absent merge of the supabase category route. -/
def combineById (base extra : List Article) : List Article :=
  extra.foldl (fun acc t =>
    if acc.any (fun a => a.id = t.id) then acc else acc ++ [t]) base

/-- The supabase category route: an ILIKE query on category (three
variants), a separate contains(tags, [name]) query — exact array element
membership of the formatted name — and a merge de-duplicated by id. -/
def byCategorySupabase (store : List Article) (slug : String) : List Article :=
  let name := formatSlug slug
  let categoryArticles := sortDesc (store.filter (categoryFieldMatch slug))
  let tagArticles := sortDesc (store.filter (fun a => a.tags.contains name))
  combineById categoryArticles tagArticles

/-- The mongoose tag route's primary predicate: some tag entry matches the
decoded tag name case-insensitively as a substring. -/
def tagPrimMongoose (t : String) (a : Article) : Bool :=
  a.tags.any (fun x => ciContains x t)

/-- The supabase tag route's primary predicate: contains(tags, [t]) —
exact, case-sensitive element membership. -/
def tagPrimSupabase (t : String) (a : Article) : Bool :=
  a.tags.contains t

/-- The fallback predicate of both tag routes: category or subcategory
contains the tag name case-insensitively (an absent subcategory
matches nothing). -/
def tagFallback (t : String) (a : Article) : Bool :=
  ciContains a.category t ||
    (match a.subcategory with
     | some s => ciContains s t
     | none => false)

/-- The mongoose tag route: query tags first; only when that result is
empty, run the category/subcategory query instead. -/
def byTagMongoose (store : List Article) (t : String) : List Article :=
  let primary := sortDesc (store.filter (tagPrimMongoose t))
  if primary.isEmpty then sortDesc (store.filter (tagFallback t))
  else primary

/-- The supabase tag route: same two-step shape, with the exact-membership
primary query. -/
def byTagSupabase (store : List Article) (t : String) : List Article :=
  let primary := sortDesc (store.filter (tagPrimSupabase t))
  if primary.isEmpty then sortDesc (store.filter (tagFallback t))
  else primary

/-- HTTP outcome of the get-by-slug routes. -/
inductive SlugOutcome where
  | found (a : Article)
  | notFound
  | storeError (msg : String)
deriving DecidableEq, Repr

/-- The mongoose slug route: findOne on slug; null becomes a 404, a store
rejection becomes a 500 with the store's message. -/
def getBySlugMongoose (resp : Except String (List Article)) (s : String) : SlugOutcome :=
  match resp with
  | .error m => .storeError m
  | .ok store =>
    match store.find? (fun a => a.slug == s) with
    | some a => .found a
    | none => .notFound

/-- The supabase slug route: eq(slug, s) with .single(); PGRST116 (zero or
more than one row) becomes a 404, any other store error a 500. -/
def getBySlugSupabase (resp : Except String (List Article)) (s : String) : SlugOutcome :=
  match resp with
  | .error m => .storeError m
  | .ok store =>
    match store.filter (fun a => a.slug == s) with
    | [a] => .found a
    | _ => .notFound

/-! ## Claim-side definitions

These follow the words of the spec sentences behind the refuted claims,
for comparison with the source-translated route functions above. -/

/-- Per the claim for the category route: a record matches when its
category contains any of the three variants case-insensitively, or some
tag entry passes the same case-insensitive substring test. -/
def claimCategoryPred (slug : String) (a : Article) : Bool :=
  let name := formatSlug slug
  let variants := [name, singularOf name, pluralOf name]
  variants.any (fun v => ciContains a.category v) ||
    a.tags.any (fun t => variants.any (fun v => ciContains t v))

/-- Per the claim for the tag route: the primary match set consists of the
records with a tag entry case-insensitively containing the tag name. -/
def claimTagPrimary (store : List Article) (t : String) : List Article :=
  store.filter (fun a => a.tags.any (fun x => ciContains x t))

/-! ## Refactored run functions shared between claims -/

/-- The batched article upsert of migrateData applied to pre-converted rows. -/
def applyArticleBatches (rows : List DestArticle) (store : List DestArticle) : List DestArticle :=
  (chunks articleBatchSize rows).foldl
    (fun st b => upsertRows (fun a => a.slug) false st b) store

/-- The batched subscriber upsert of migrateSubscribers applied to rows. -/
def applySubscriberBatches (rows : List DestSubscriber) (store : List DestSubscriber) : List DestSubscriber :=
  (chunks subscriberBatchSize rows).foldl
    (fun st b => upsertRows (fun s => s.email) true st b) store

/-! ## Concrete fixtures used by witnesses and counterexamples -/

/-- A source document carrying only a title. -/
def cDocTitleOnly : SourceDoc := { title := some "Test" }

/-- A source document with title and content but no excerpt. -/
def cDocWithContent : SourceDoc := { title := some "X", content := some "abc" }

/-- A source document without a slug. -/
def cDocNoSlug : SourceDoc := { title := some "Hello" }

/-- A source document with an explicit slug and date. -/
def cDocSlugged : SourceDoc := { slug := some "hello-world", published_date := some 3 }

/-- A source subscriber document. -/
def cSubDoc : SourceSubscriber := { email := some "reader at example dot com" }

/-- An article whose only link to the Criminal Law category is a
lower-case tag entry. -/
def cArticleTags : Article :=
  { id := 1, title := "t1", slug := "s1", published_date := 3
  , category := "zzz", subcategory := none, tags := ["criminal law"] }

/-- An article tagged Laws with an unrelated category. -/
def cArticleLaws : Article :=
  { id := 2, title := "t2", slug := "s2", published_date := 4
  , category := "zzz", subcategory := none, tags := ["Laws"] }

/-- A plain article fixture. -/
def cArticleA : Article :=
  { id := 10, title := "a", slug := "slug-a", published_date := 5
  , category := "Law", subcategory := none, tags := [] }

/-- A second plain article fixture with a later date. -/
def cArticleB : Article :=
  { id := 11, title := "b", slug := "slug-b", published_date := 9
  , category := "Laws", subcategory := some "Criminal", tags := ["tax"] }

/-- A sample destination row. -/
def cRow : DestArticle := convertDocumentToSupabaseFormat cDocTitleOnly 0 0

/-- A batch outcome function that rejects exactly the second batch. -/
def failSecondBatch : Nat → List DestArticle → Except String Unit :=
  fun i _ => if i = 1 then .error "unique constraint violation" else .ok ()

/-- An environment with everything set except the service credential. -/
def cEnvNoServiceKey : Env :=
  { MONGODB_URI := some "mongodb connection string"
  , SUPABASE_URL := some "supabase url"
  , SUPABASE_KEY := some "supabase anon key" }

/-! ## Lemmas: sorting -/

theorem insertDesc_perm (a : Article) (l : List Article) :
    List.Perm (insertDesc a l) (a :: l) := by
  induction l with
  | nil => rfl
  | cons b bs ih =>
    by_cases h : b.published_date < a.published_date
    · simp [insertDesc, h]
    · simp only [insertDesc, if_neg h]
      exact (ih.cons b).trans (List.Perm.swap a b bs)

theorem sortDesc_perm (l : List Article) : List.Perm (sortDesc l) l := by
  induction l with
  | nil => rfl
  | cons a as ih =>
    exact (insertDesc_perm a (sortDesc as)).trans (ih.cons a)

theorem mem_sortDesc {a : Article} {l : List Article} :
    a ∈ sortDesc l ↔ a ∈ l :=
  (sortDesc_perm l).mem_iff

theorem length_sortDesc (l : List Article) :
    (sortDesc l).length = l.length :=
  (sortDesc_perm l).length_eq

theorem sortDesc_eq_nil_iff {l : List Article} :
    sortDesc l = [] ↔ l = [] := by
  constructor
  · intro h
    have := length_sortDesc l
    rw [h] at this
    exact List.length_eq_zero.mp this.symm
  · intro h; subst h; rfl

/-! ## Lemmas: chunking -/

theorem chunksGo_nil (k fuel : Nat) : chunksGo k fuel ([] : List α) = [] := by
  cases fuel <;> rfl

theorem chunksGo_flatten {k : Nat} (hk : 1 ≤ k) :
    ∀ (fuel : Nat) (l : List α), l.length ≤ fuel → (chunksGo k fuel l).flatten = l := by
  intro fuel
  induction fuel with
  | zero =>
    intro l hl
    cases l with
    | nil => rfl
    | cons x xs => simp at hl
  | succ f ih =>
    intro l hl
    cases l with
    | nil => rfl
    | cons x xs =>
      have hl' : xs.length + 1 ≤ f + 1 := by simpa using hl
      have hdrop : (List.drop k (x :: xs)).length ≤ f := by
        rw [List.length_drop, List.length_cons]
        omega
      simp only [chunksGo, List.flatten_cons]
      rw [ih ((x :: xs).drop k) hdrop]
      exact List.take_append_drop k (x :: xs)

theorem chunks_flatten {k : Nat} (hk : 1 ≤ k) (l : List α) :
    (chunks k l).flatten = l :=
  chunksGo_flatten hk l.length l (Nat.le_refl _)

theorem chunksGo_mem_length {k : Nat} (hk : 1 ≤ k) :
    ∀ (fuel : Nat) (l : List α), ∀ b ∈ chunksGo k fuel l, b.length ≤ k ∧ b ≠ [] := by
  intro fuel
  induction fuel with
  | zero =>
    intro l b hb
    cases l with
    | nil => simp [chunksGo] at hb
    | cons x xs => simp [chunksGo] at hb
  | succ f ih =>
    intro l b hb
    cases l with
    | nil => simp [chunksGo] at hb
    | cons x xs =>
      simp only [chunksGo, List.mem_cons] at hb
      rcases hb with hb | hb
      · subst hb
        constructor
        · simp [List.length_take]
        · intro h
          have : (List.take k (x :: xs)).length = 0 := by rw [h]; rfl
          simp [List.length_take] at this
          omega
      · exact ih _ b hb

theorem chunks_mem_length {k : Nat} (hk : 1 ≤ k) (l : List α) :
    ∀ b ∈ chunks k l, b.length ≤ k ∧ b ≠ [] :=
  chunksGo_mem_length hk l.length l

theorem chunksGo_dropLast_length {k : Nat} (hk : 1 ≤ k) :
    ∀ (fuel : Nat) (l : List α), l.length ≤ fuel →
      ∀ b ∈ (chunksGo k fuel l).dropLast, b.length = k := by
  intro fuel
  induction fuel with
  | zero =>
    intro l hl b hb
    cases l with
    | nil => simp [chunksGo] at hb
    | cons x xs => simp at hl
  | succ f ih =>
    intro l hl b hb
    cases l with
    | nil => simp [chunksGo] at hb
    | cons x xs =>
      simp only [chunksGo] at hb
      rcases hrest : chunksGo k f ((x :: xs).drop k) with _ | ⟨r, rs⟩
      · rw [hrest] at hb
        simp at hb
      · rw [hrest] at hb
        have hb' : b ∈ List.take k (x :: xs) :: (r :: rs).dropLast := by
          simpa [List.dropLast] using hb
        rcases List.mem_cons.mp hb' with hb'' | hb''
        · subst hb''
          have hne : (x :: xs).drop k ≠ [] := by
            intro hnil
            rw [hnil, chunksGo_nil] at hrest
            exact List.noConfusion hrest
          have hlt : k < (x :: xs).length := by
            by_contra hge
            push_neg at hge
            exact hne (List.drop_eq_nil_of_le hge)
          rw [List.length_take]
          omega
        · have hl' : xs.length + 1 ≤ f + 1 := by simpa using hl
          have hdrop : (List.drop k (x :: xs)).length ≤ f := by
            rw [List.length_drop, List.length_cons]
            omega
          have := ih ((x :: xs).drop k) hdrop b
          rw [hrest] at this
          exact this hb''

/-! ## Lemmas: folding upserts over batches -/

theorem foldl_flatten (f : β → α → β) (L : List (List α)) (init : β) :
    L.foldl (fun st b => b.foldl f st) init = L.flatten.foldl f init := by
  induction L generalizing init with
  | nil => rfl
  | cons b bs ih => simp [List.flatten_cons, List.foldl_append, ih]

theorem foldl_upsert_chunks {ρ κ : Type} [DecidableEq κ] (key : ρ → κ)
    (ig : Bool) {k : Nat} (hk : 1 ≤ k) (store rows : List ρ) :
    (chunks k rows).foldl (fun st b => upsertRows key ig st b) store =
      upsertRows key ig store rows := by
  have h := foldl_flatten (upsertOne key ig) (chunks k rows) store
  simpa [upsertRows, chunks_flatten hk] using h

/-! ## Lemmas: upsert semantics -/

section UpsertLemmas

variable {ρ κ : Type} [DecidableEq κ] (key : ρ → κ)

theorem map_id_on (f : α → α) (l : List α) (h : ∀ x ∈ l, f x = x) :
    l.map f = l := by
  induction l with
  | nil => rfl
  | cons x xs ih =>
    simp only [List.map_cons, h x (List.mem_cons_self x xs)]
    rw [ih (fun y hy => h y (List.mem_cons_of_mem x hy))]

theorem upsertRows_fresh (ig : Bool) :
    ∀ (rows st : List ρ), ((st ++ rows).map key).Nodup →
      upsertRows key ig st rows = st ++ rows := by
  intro rows
  induction rows with
  | nil => intro st h; simp [upsertRows]
  | cons r rs ih =>
    intro st h
    have hnotin : ∀ x ∈ st, key x ≠ key r := by
      intro x hx
      have h' := h
      rw [List.map_append, List.nodup_append] at h'
      exact fun he =>
        h'.2.2 (List.mem_map_of_mem key hx)
          (by
            have := List.mem_map_of_mem key (List.mem_cons_self r rs)
            rwa [← he] at this)
    have hany : st.any (fun x => decide (key x = key r)) = false := by
      rw [List.any_eq_false]
      intro x hx
      simpa using hnotin x hx
    have step : upsertOne key ig st r = st ++ [r] := by
      simp only [upsertOne]
      rw [if_neg]
      simp only [List.any_eq_true, not_exists, not_and]
      intro x hx
      simpa using hnotin x hx
    calc upsertRows key ig st (r :: rs)
        = upsertRows key ig (upsertOne key ig st r) rs := rfl
      _ = upsertRows key ig (st ++ [r]) rs := by rw [step]
      _ = (st ++ [r]) ++ rs := ih (st ++ [r]) (by simpa using h)
      _ = st ++ r :: rs := by simp

theorem upsertOne_self (st : List ρ) (r : ρ) (hmem : r ∈ st)
    (huniq : ∀ x ∈ st, key x = key r → x = r) :
    upsertOne key false st r = st := by
  simp only [upsertOne]
  rw [if_pos, if_neg (by simp)]
  · exact map_id_on _ st (fun x hx => by
      by_cases hx' : key x = key r
      · simp [hx', (huniq x hx hx').symm]
      · simp [hx'])
  · exact List.any_eq_true.mpr ⟨r, hmem, by simp⟩

theorem upsertRows_self :
    ∀ (rows st : List ρ),
      (∀ r ∈ rows, r ∈ st ∧ ∀ x ∈ st, key x = key r → x = r) →
      upsertRows key false st rows = st := by
  intro rows
  induction rows with
  | nil => intro st _; rfl
  | cons r rs ih =>
    intro st h
    have hr := h r (List.mem_cons_self r rs)
    calc upsertRows key false st (r :: rs)
        = upsertRows key false (upsertOne key false st r) rs := rfl
      _ = upsertRows key false st rs := by
          rw [upsertOne_self key st r hr.1 hr.2]
      _ = st := ih st (fun x hx => h x (List.mem_cons_of_mem r hx))

theorem mem_upsertRows_skip (st : List ρ) (rows : List ρ) {x : ρ}
    (hx : x ∈ st) : x ∈ upsertRows key true st rows := by
  induction rows generalizing st with
  | nil => exact hx
  | cons r rs ih =>
    have : x ∈ upsertOne key true st r := by
      simp only [upsertOne]
      by_cases h : st.any (fun y => decide (key y = key r)) = true
      · simp [h, if_pos, hx]
      · rw [if_neg h]
        exact List.mem_append_left _ hx
    exact ih _ this

theorem keyMem_upsertRows_skip :
    ∀ (rows st : List ρ) (r : ρ), r ∈ rows →
      ∃ x ∈ upsertRows key true st rows, key x = key r := by
  intro rows
  induction rows with
  | nil => intro st r h; cases h
  | cons b bs ih =>
    intro st r h
    rcases List.mem_cons.mp h with h | h
    · subst h
      by_cases hany : st.any (fun y => decide (key y = key r)) = true
      · rcases List.any_eq_true.mp hany with ⟨x, hx, hkey⟩
        refine ⟨x, ?_, by simpa using hkey⟩
        have hx1 : x ∈ upsertOne key true st r := by
          simp only [upsertOne, if_pos hany, if_pos]
          exact hx
        exact mem_upsertRows_skip key _ bs hx1
      · have hx1 : r ∈ upsertOne key true st r := by
          simp only [upsertOne, if_neg hany]
          exact List.mem_append_right _ (List.mem_singleton_self r)
        exact ⟨r, mem_upsertRows_skip key _ bs hx1, rfl⟩
    · exact ih _ r h

theorem upsertRows_skip_all :
    ∀ (rows st : List ρ),
      (∀ r ∈ rows, ∃ x ∈ st, key x = key r) →
      upsertRows key true st rows = st := by
  intro rows
  induction rows with
  | nil => intro st _; rfl
  | cons r rs ih =>
    intro st h
    rcases h r (List.mem_cons_self r rs) with ⟨x, hx, hkey⟩
    have hany : st.any (fun y => decide (key y = key r)) = true :=
      List.any_eq_true.mpr ⟨x, hx, by simpa using hkey⟩
    have step : upsertOne key true st r = st := by
      simp only [upsertOne, if_pos hany, if_pos]
    calc upsertRows key true st (r :: rs)
        = upsertRows key true (upsertOne key true st r) rs := rfl
      _ = upsertRows key true st rs := by rw [step]
      _ = st := ih st (fun y hy => h y (List.mem_cons_of_mem r hy))

end UpsertLemmas

/-! ## Lemmas: the id-keyed merge of the supabase category route -/

theorem mem_combineById_left :
    ∀ (extra base : List Article) {a : Article}, a ∈ base →
      a ∈ combineById base extra := by
  intro extra
  induction extra with
  | nil => intro base a ha; exact ha
  | cons t ts ih =>
    intro base a ha
    simp only [combineById, List.foldl_cons]
    by_cases h : base.any (fun x => decide (x.id = t.id)) = true
    · simp only [h, if_pos]
      exact ih base ha
    · rw [if_neg h]
      exact ih (base ++ [t]) (List.mem_append_left _ ha)

theorem mem_combineById_src :
    ∀ (extra base : List Article) {a : Article}, a ∈ combineById base extra →
      a ∈ base ∨ a ∈ extra := by
  intro extra
  induction extra with
  | nil => intro base a ha; exact Or.inl ha
  | cons t ts ih =>
    intro base a ha
    simp only [combineById, List.foldl_cons] at ha
    by_cases h : base.any (fun x => decide (x.id = t.id)) = true
    · rw [if_pos h] at ha
      rcases ih base ha with h' | h'
      · exact Or.inl h'
      · exact Or.inr (List.mem_cons_of_mem t h')
    · rw [if_neg h] at ha
      rcases ih (base ++ [t]) ha with h' | h'
      · rcases List.mem_append.mp h' with h'' | h''
        · exact Or.inl h''
        · exact Or.inr (by
            rw [List.mem_singleton.mp h'']
            exact List.mem_cons_self t ts)
      · exact Or.inr (List.mem_cons_of_mem t h')

theorem mem_combineById_right :
    ∀ (extra base : List Article) {a : Article},
      (∀ x y, x ∈ base ++ extra → y ∈ base ++ extra → x.id = y.id → x = y) →
      a ∈ extra → a ∈ combineById base extra := by
  intro extra
  induction extra with
  | nil => intro base a _ ha; cases ha
  | cons t ts ih =>
    intro base a hinj ha
    simp only [combineById, List.foldl_cons]
    have hsub : ∀ z, z ∈ (if base.any (fun x => decide (x.id = t.id)) = true
        then base else base ++ [t]) ++ ts → z ∈ base ++ t :: ts := by
      intro z hz
      by_cases h : base.any (fun x => decide (x.id = t.id)) = true
      · rw [if_pos h] at hz
        rcases List.mem_append.mp hz with h' | h'
        · exact List.mem_append_left _ h'
        · exact List.mem_append_right _ (List.mem_cons_of_mem t h')
      · rw [if_neg h] at hz
        rcases List.mem_append.mp hz with h' | h'
        · rcases List.mem_append.mp h' with h'' | h''
          · exact List.mem_append_left _ h''
          · exact List.mem_append_right _
              (by simp [List.mem_singleton.mp h''])
        · exact List.mem_append_right _ (List.mem_cons_of_mem t h')
    rcases List.mem_cons.mp ha with h | h
    · subst h
      by_cases hany : base.any (fun x => decide (x.id = a.id)) = true
      · rcases List.any_eq_true.mp hany with ⟨x, hx, hid⟩
        have hxa : x = a :=
          hinj x a (List.mem_append_left _ hx)
            (List.mem_append_right _ (List.mem_cons_self a ts))
            (by simpa using hid)
        simp only [hany, if_pos]
        exact mem_combineById_left ts base (hxa ▸ hx)
      · rw [if_neg hany]
        exact mem_combineById_left ts (base ++ [a])
          (List.mem_append_right _ (List.mem_singleton_self a))
    · by_cases hany : base.any (fun x => decide (x.id = t.id)) = true
      · simp only [hany, if_pos]
        refine ih base ?_ h
        intro x y hx hy
        refine hinj x y ?_ ?_
        · exact hsub x (by simpa [hany] using hx)
        · exact hsub y (by simpa [hany] using hy)
      · rw [if_neg hany]
        refine ih (base ++ [t]) ?_ h
        intro x y hx hy
        refine hinj x y ?_ ?_
        · exact hsub x (by simpa [hany] using hx)
        · exact hsub y (by simpa [hany] using hy)

theorem nodup_combineById :
    ∀ (extra base : List Article), (base.map (fun a => a.id)).Nodup →
      ((combineById base extra).map (fun a => a.id)).Nodup := by
  intro extra
  induction extra with
  | nil => intro base h; exact h
  | cons t ts ih =>
    intro base h
    simp only [combineById, List.foldl_cons]
    by_cases hany : base.any (fun x => decide (x.id = t.id)) = true
    · simp only [hany, if_pos]
      exact ih base h
    · rw [if_neg hany]
      refine ih (base ++ [t]) ?_
      rw [List.map_append, List.nodup_append]
      refine ⟨h, List.nodup_singleton _, ?_⟩
      intro z hz
      rcases List.mem_map.mp hz with ⟨x, hx, hxz⟩
      simp only [List.map_cons, List.map_nil, List.mem_singleton]
      intro hzt
      have hxt : x.id = t.id := by rw [hxz, hzt]
      exact hany (List.any_eq_true.mpr ⟨x, hx, by simpa using hxt⟩)

/-! ## Lemmas: batch counting -/

theorem runBatchCountsGo_totals (u : Nat → List DestArticle → Except String Unit) :
    ∀ (L : List (List DestArticle)) (i : Nat),
      (runBatchCountsGo u i L).1 + (runBatchCountsGo u i L).2.1 =
        (L.map List.length).sum ∧
      (runBatchCountsGo u i L).2.2 = L.length := by
  intro L
  induction L with
  | nil => intro i; exact ⟨rfl, rfl⟩
  | cons b bs ih =>
    intro i
    have h := ih (i + 1)
    simp only [runBatchCountsGo]
    cases u i b with
    | ok _ =>
      simp only [List.map_cons, List.sum_cons, List.length_cons]
      omega
    | error _ =>
      simp only [List.map_cons, List.sum_cons, List.length_cons]
      omega

theorem chunksGo_length {k : Nat} (hk : 1 ≤ k) :
    ∀ (fuel : Nat) (l : List α), l.length ≤ fuel →
      (chunksGo k fuel l).length = (l.length + k - 1) / k := by
  intro fuel
  induction fuel with
  | zero =>
    intro l hl
    cases l with
    | nil =>
      simp only [chunksGo, List.length_nil]
      rw [Nat.div_eq_of_lt (by omega)]
    | cons x xs => simp at hl
  | succ f ih =>
    intro l hl
    cases l with
    | nil =>
      simp only [chunksGo, List.length_nil]
      rw [Nat.div_eq_of_lt (by omega)]
    | cons x xs =>
      have hl' : xs.length + 1 ≤ f + 1 := by simpa using hl
      have hdrop : (List.drop k (x :: xs)).length ≤ f := by
        rw [List.length_drop, List.length_cons]
        omega
      simp only [chunksGo, List.length_cons]
      rw [ih _ hdrop, List.length_drop, List.length_cons]
      rcases Nat.lt_or_ge (xs.length + 1) k with hcase | hcase
      · have h1 : xs.length + 1 - k = 0 := by omega
        rw [h1]
        have h2 : (0 + k - 1) / k = 0 := Nat.div_eq_of_lt (by omega)
        have h3 : (xs.length + 1 + k - 1) / k = 1 := by
          have lo : 1 * k ≤ xs.length + 1 + k - 1 := by omega
          have hi : xs.length + 1 + k - 1 < (1 + 1) * k := by omega
          exact Nat.div_eq_of_lt_le lo hi
        omega
      · have h1 : xs.length + 1 - k + k - 1 = xs.length := by omega
        have h2 : xs.length + 1 + k - 1 = xs.length + k := by omega
        rw [h1, h2]
        exact (Nat.add_div_right _ (by omega)).symm

theorem chunks_length {k : Nat} (hk : 1 ≤ k) (l : List α) :
    (chunks k l).length = (l.length + k - 1) / k :=
  chunksGo_length hk l.length l (Nat.le_refl _)

/-! ## Lemmas: normalizer determinism under explicit slug and date -/

theorem convert_indep (d : SourceDoc) (hslug : isTruthyStr d.slug = true)
    (hdate : d.published_date.isSome = true) (n1 r1 n2 r2 : Nat) :
    convertDocumentToSupabaseFormat d n1 r1 = convertDocumentToSupabaseFormat d n2 r2 := by
  rcases hs : d.slug with _ | s
  · rw [hs] at hslug
    simp [isTruthyStr] at hslug
  · rcases hp : d.published_date with _ | p
    · rw [hp] at hdate
      simp at hdate
    · have hne : s ≠ "" := by
        rw [hs] at hslug
        simpa [isTruthyStr] using hslug
      simp [convertDocumentToSupabaseFormat, jsOr, hs, hp, hne]

theorem convertSubscriber_email (d : SourceSubscriber) (n : Nat) :
    (convertSubscriber d n).email = d.email := rfl

/-! ## Small list helpers -/

theorem isEmpty_iff_nil {l : List Article} : l.isEmpty = true ↔ l = [] := by
  cases l <;> simp

theorem map_congr_on (f g : α → β) :
    ∀ (l : List α), (∀ x ∈ l, f x = g x) → l.map f = l.map g := by
  intro l
  induction l with
  | nil => intro _; rfl
  | cons x xs ih =>
    intro h
    simp only [List.map_cons, h x (List.mem_cons_self x xs)]
    rw [ih (fun y hy => h y (List.mem_cons_of_mem x hy))]

theorem nodup_ids_sortDesc_filter (store : List Article) (p : Article → Bool)
    (hnd : (store.map (fun a => a.id)).Nodup) :
    ((sortDesc (store.filter p)).map (fun a => a.id)).Nodup := by
  have hperm : List.Perm ((sortDesc (store.filter p)).map (fun a => a.id))
      ((store.filter p).map (fun a => a.id)) :=
    (sortDesc_perm (store.filter p)).map _
  rw [hperm.nodup_iff]
  exact ((List.filter_sublist store).map _).nodup hnd

/-! ## Claim C1 -/

set_option maxRecDepth 8192 in
/-- Claim C1 evaluated on the code: a source record with only title set
gets the documented defaults for author, category, is_featured and tags;
but its excerpt is the string undefined followed by the ellipsis marker,
not the empty string the claim states, because the optional-chain
concatenation coerces the absent content and is always truthy, leaving
the final empty-string fallback unreachable. When content is present and
excerpt absent, the excerpt is the 150-character cut plus the marker, as
claimed. -/
theorem c1_normalizer_defaults_at_title_only :
    (convertDocumentToSupabaseFormat cDocTitleOnly 5 7).author = "Unknown" ∧
    (convertDocumentToSupabaseFormat cDocTitleOnly 5 7).category = "Uncategorized" ∧
    (convertDocumentToSupabaseFormat cDocTitleOnly 5 7).is_featured = false ∧
    (convertDocumentToSupabaseFormat cDocTitleOnly 5 7).tags = [] ∧
    (convertDocumentToSupabaseFormat cDocTitleOnly 5 7).excerpt = "undefined..." ∧
    (convertDocumentToSupabaseFormat cDocTitleOnly 5 7).excerpt ≠ "" ∧
    (convertDocumentToSupabaseFormat cDocWithContent 5 7).excerpt = "abc..." := by
  decide

/-! ## Claim C2 -/

/-- Claim C2 as stated is false: a source record without a slug is given
the fresh slug article-(timestamp)-(random), not one derived from the
title, so two runs over the same source generate different slugs and the
slug-keyed upsert duplicates the row: after two runs the destination
holds two rows where one run produces one. -/
theorem c2_counterexample_random_slug :
    (convertDocumentToSupabaseFormat cDocNoSlug 1 0).slug = "article-1-0" ∧
    (convertDocumentToSupabaseFormat cDocNoSlug 2 0).slug = "article-2-0" ∧
    (convertDocumentToSupabaseFormat cDocNoSlug 1 0).slug ≠
      (convertDocumentToSupabaseFormat cDocNoSlug 2 0).slug ∧
    (applyArticleMigration [cDocNoSlug] 1 0 []).length = 1 ∧
    (applyArticleMigration [cDocNoSlug] 2 0
      (applyArticleMigration [cDocNoSlug] 1 0 [])).length = 2 := by
  refine ⟨rfl, rfl, ?_, rfl, rfl⟩
  decide

/-- Claim C2 amended: when every source article carries an explicit
(truthy) slug and an explicit published date, the converted rows do not
depend on the run's clock or randomness, so a second migration run over
the unchanged source leaves the destination store exactly as the first
run left it (same rows, hence same count), and each record's slug agrees
across runs; a second subscriber run likewise leaves the email-keyed
store unchanged (this needs no hypotheses, since the email is copied
verbatim and conflicts are skipped). -/
theorem c2_idempotent_when_slug_explicit
    (docs : List SourceDoc) (sdocs : List SourceSubscriber)
    (n1 r1 n2 r2 m1 m2 : Nat)
    (h1 : ∀ d ∈ docs, isTruthyStr d.slug = true ∧ d.published_date.isSome = true)
    (h2 : ((articleRows docs n1 r1).map (fun a => a.slug)).Nodup) :
    applyArticleMigration docs n2 r2 (applyArticleMigration docs n1 r1 []) =
      applyArticleMigration docs n1 r1 [] ∧
    applySubscriberMigration sdocs m2 (applySubscriberMigration sdocs m1 []) =
      applySubscriberMigration sdocs m1 [] ∧
    ∀ d ∈ docs, (convertDocumentToSupabaseFormat d n1 r1).slug =
      (convertDocumentToSupabaseFormat d n2 r2).slug := by
  have hrows : articleRows docs n2 r2 = articleRows docs n1 r1 := by
    apply map_congr_on
    intro d hd
    exact convert_indep d (h1 d hd).1 (h1 d hd).2 n2 r2 n1 r1
  have happly : ∀ (n r : Nat) (st : List DestArticle),
      applyArticleMigration docs n r st =
        upsertRows (fun a => a.slug) false st (articleRows docs n r) := by
    intro n r st
    exact foldl_upsert_chunks _ false (by simp [articleBatchSize]) st _
  have hS1 : applyArticleMigration docs n1 r1 [] = articleRows docs n1 r1 := by
    rw [happly]
    have := upsertRows_fresh (fun a : DestArticle => a.slug) false
      (articleRows docs n1 r1) [] (by simpa using h2)
    simpa using this
  refine ⟨?_, ?_, ?_⟩
  · rw [happly, hrows, hS1]
    apply upsertRows_self
    intro r hr
    refine ⟨hr, ?_⟩
    intro x hx hkey
    exact List.inj_on_of_nodup_map h2 hx hr hkey
  · have happs : ∀ (m : Nat) (st : List DestSubscriber),
        applySubscriberMigration sdocs m st =
          upsertRows (fun s => s.email) true st (subscriberRows sdocs m) := by
      intro m st
      exact foldl_upsert_chunks _ true (by simp [subscriberBatchSize]) st _
    rw [happs, happs]
    apply upsertRows_skip_all
    intro r hr
    rcases List.mem_map.mp hr with ⟨d, hd, hdr⟩
    have hmem1 : convertSubscriber d m1 ∈ subscriberRows sdocs m1 :=
      List.mem_map_of_mem _ hd
    rcases keyMem_upsertRows_skip (fun s : DestSubscriber => s.email)
      (subscriberRows sdocs m1) [] (convertSubscriber d m1) hmem1 with ⟨x, hx, hkey⟩
    exact ⟨x, hx, by rw [hkey, convertSubscriber_email, ← hdr, convertSubscriber_email]⟩
  · intro d hd
    rw [convert_indep d (h1 d hd).1 (h1 d hd).2 n1 r1 n2 r2]

/-- Witness for the amended C2 at a one-article, one-subscriber source. -/
theorem c2_idempotence_witness :
    applyArticleMigration [cDocSlugged] 3 4 (applyArticleMigration [cDocSlugged] 1 2 []) =
      applyArticleMigration [cDocSlugged] 1 2 [] ∧
    applySubscriberMigration [cSubDoc] 6 (applySubscriberMigration [cSubDoc] 5 []) =
      applySubscriberMigration [cSubDoc] 5 [] := by
  have h := c2_idempotent_when_slug_explicit [cDocSlugged] [cSubDoc] 1 2 3 4 5 6
    (by decide) (by decide)
  exact ⟨h.1, h.2.1⟩

/-! ## Claim C7 -/

/-- Claim C7 as stated is false: with the source connection string and
the base destination credentials present but the elevated service
credential absent, the migration process does not exit; it only logs a
warning and proceeds. -/
theorem c7_counterexample_service_key_warns :
    migrationStartup cEnvNoServiceKey ≠ StartupResult.exited ∧
    migrationStartup cEnvNoServiceKey = StartupResult.proceededWithWarning := by
  refine ⟨?_, rfl⟩
  decide

/-- Claim C7 amended: a missing source connection string or missing base
destination credentials are fatal at startup (the process exits before
running the copy), while a missing elevated service credential alone only
produces a warning and the run proceeds. -/
theorem c7_startup_checks (env : Env) :
    ((isTruthyStr env.SUPABASE_URL = false ∨ isTruthyStr env.SUPABASE_KEY = false ∨
        isTruthyStr env.MONGODB_URI = false) →
      migrationStartup env = StartupResult.exited) ∧
    (isTruthyStr env.SUPABASE_URL = true → isTruthyStr env.SUPABASE_KEY = true →
      isTruthyStr env.MONGODB_URI = true →
      isTruthyStr env.SUPABASE_SERVICE_KEY = false →
      migrationStartup env = StartupResult.proceededWithWarning) := by
  constructor
  · intro h
    by_cases h1 : ¬ isTruthyStr env.SUPABASE_URL ∨ ¬ isTruthyStr env.SUPABASE_KEY
    · unfold migrationStartup
      rw [if_pos h1]
    · rcases h with h | h | h
      · exact absurd (Or.inl (by simp [h])) h1
      · exact absurd (Or.inr (by simp [h])) h1
      · unfold migrationStartup
        rw [if_neg h1, if_pos (by simp [h])]
  · intro h1 h2 h3 h4
    unfold migrationStartup
    rw [if_neg (by simp [h1, h2]), if_neg (by simp [h3]), if_pos (by simp [h4])]

/-- Witness for the amended C7: an empty environment exits; an
environment missing only the service credential proceeds with a warning. -/
theorem c7_startup_witness :
    migrationStartup {} = StartupResult.exited ∧
    migrationStartup cEnvNoServiceKey = StartupResult.proceededWithWarning := by
  constructor
  · exact (c7_startup_checks {}).1 (Or.inl (by decide))
  · exact (c7_startup_checks cEnvNoServiceKey).2 (by decide) (by decide) (by decide)
      (by decide)

/-! ## Claim C10 -/

/-- Claim C10: in the featured routes' limit parsing, a query value
parsing to the integer 0 falls back to the default 5, while a negative
parsed value is handed to the store unmodified. -/
theorem c10_limit_zero_default_negative_passthrough :
    (∀ s, parseIntJS s = some 0 → featuredLimit (some s) = 5) ∧
    (∀ (s : String) (k : Int), k < 0 → parseIntJS s = some k →
      featuredLimit (some s) = k) := by
  constructor
  · intro s h
    simp [featuredLimit, h]
  · intro s k hk h
    simp only [featuredLimit, h]
    rw [if_neg (by omega)]

/-- Witness for C10 at the strings 0 and -7. -/
theorem c10_limit_witness :
    featuredLimit (some "0") = 5 ∧ featuredLimit (some "-7") = -7 := by
  constructor
  · exact c10_limit_zero_default_negative_passthrough.1 "0" (by decide)
  · exact c10_limit_zero_default_negative_passthrough.2 "-7" (-7) (by decide) (by decide)

/-! ## Claim C4 -/

/-- Claim C4: for a limit query that parses to n with n at least 1, the
featured route returns exactly min n total records and they form a prefix
of the store sorted descending by published date; an absent or
non-numeric limit defaults to 5. -/
theorem c4_featured_limit_take (store : List Article) (s : String) (n : Int) :
    (1 ≤ n → parseIntJS s = some n →
      (featuredArticles (some s) store).length = min n.toNat store.length ∧
      featuredArticles (some s) store <+: sortDesc store) ∧
    featuredLimit none = 5 ∧
    (parseIntJS s = none → featuredLimit (some s) = 5) := by
  refine ⟨?_, rfl, ?_⟩
  · intro hn hp
    have hlim : featuredLimit (some s) = n := by
      simp only [featuredLimit, hp]
      rw [if_neg (by omega)]
    constructor
    · rw [featuredArticles, hlim, List.length_take, length_sortDesc]
    · rw [featuredArticles]
      exact List.take_prefix _ _
  · intro hp
    simp [featuredLimit, hp]

/-- Witness for C4 at a two-article store and the limit string 1. -/
theorem c4_featured_witness :
    (featuredArticles (some "1") [cArticleA, cArticleB]).length =
      min (Int.toNat 1) (List.length [cArticleA, cArticleB]) ∧
    featuredArticles (some "1") [cArticleA, cArticleB] <+:
      sortDesc [cArticleA, cArticleB] :=
  (c4_featured_limit_take [cArticleA, cArticleB] "1" 1).1 (by decide) (by decide)

/-! ## Claim C5 -/

/-- Claim C5 as stated is false for the supabase variant: its primary tag
query is exact, case-sensitive element membership, not a case-insensitive
substring test per tag entry. A record tagged Laws is in the claim's
primary match set for the tag law, yet the supabase route finds no
primary match, falls back to category/subcategory, and returns nothing. -/
theorem c5_counterexample_tag_primary_exact :
    claimTagPrimary [cArticleLaws] "law" = [cArticleLaws] ∧
    byTagSupabase [cArticleLaws] "law" = [] := by
  decide

/-- Claim C5 amended: in both variants, the fallback
(category/subcategory case-insensitive substring) result is returned
exactly when the primary tag match set is empty, and the primary set
alone is returned when it is non-empty — the two sets are never merged.
The mongoose primary test is a case-insensitive substring test per tag
entry, while the supabase primary test is exact tag-element membership. -/
theorem c5_tag_fallback_iff_empty (store : List Article) (t : String) :
    (store.filter (tagPrimMongoose t) ≠ [] →
      byTagMongoose store t = sortDesc (store.filter (tagPrimMongoose t))) ∧
    (store.filter (tagPrimMongoose t) = [] →
      byTagMongoose store t = sortDesc (store.filter (tagFallback t))) ∧
    (store.filter (tagPrimSupabase t) ≠ [] →
      byTagSupabase store t = sortDesc (store.filter (tagPrimSupabase t))) ∧
    (store.filter (tagPrimSupabase t) = [] →
      byTagSupabase store t = sortDesc (store.filter (tagFallback t))) := by
  refine ⟨?_, ?_, ?_, ?_⟩
  · intro hne
    have h : (sortDesc (store.filter (tagPrimMongoose t))).isEmpty = false := by
      rcases hh : (sortDesc (store.filter (tagPrimMongoose t))).isEmpty with _ | _
      · rfl
      · exact absurd (sortDesc_eq_nil_iff.mp (isEmpty_iff_nil.mp hh)) hne
    simp [byTagMongoose, h]
  · intro he
    simp [byTagMongoose, he, sortDesc]
  · intro hne
    have h : (sortDesc (store.filter (tagPrimSupabase t))).isEmpty = false := by
      rcases hh : (sortDesc (store.filter (tagPrimSupabase t))).isEmpty with _ | _
      · rfl
      · exact absurd (sortDesc_eq_nil_iff.mp (isEmpty_iff_nil.mp hh)) hne
    simp [byTagSupabase, h]
  · intro he
    simp [byTagSupabase, he, sortDesc]

/-- Witness for the amended C5: the Laws-tagged article is a mongoose
primary match for law, while the supabase route falls back. -/
theorem c5_tag_witness :
    byTagMongoose [cArticleLaws] "law" =
      sortDesc ([cArticleLaws].filter (tagPrimMongoose "law")) ∧
    byTagSupabase [cArticleLaws] "law" =
      sortDesc ([cArticleLaws].filter (tagFallback "law")) := by
  constructor
  · exact (c5_tag_fallback_iff_empty [cArticleLaws] "law").1 (by decide)
  · exact (c5_tag_fallback_iff_empty [cArticleLaws] "law").2.2.2 (by decide)

/-! ## Claim C6 -/

/-- Claim C6: both slug routes do an exact match on the slug field and
produce either exactly one record (whose slug equals the request and
which belongs to the store) or a NotFound outcome — never more than one
record; a store error is surfaced as a distinct outcome carrying the
store's message. -/
theorem c6_slug_lookup_outcomes (store : List Article) (s : String) :
    (∀ a, getBySlugMongoose (Except.ok store) s = SlugOutcome.found a →
      a.slug = s ∧ a ∈ store) ∧
    (∀ a, getBySlugSupabase (Except.ok store) s = SlugOutcome.found a →
      a.slug = s ∧ a ∈ store) ∧
    ((∃ a, getBySlugMongoose (Except.ok store) s = SlugOutcome.found a) ∨
      getBySlugMongoose (Except.ok store) s = SlugOutcome.notFound) ∧
    ((∃ a, getBySlugSupabase (Except.ok store) s = SlugOutcome.found a) ∨
      getBySlugSupabase (Except.ok store) s = SlugOutcome.notFound) ∧
    (∀ m, getBySlugMongoose (Except.error m) s = SlugOutcome.storeError m ∧
      getBySlugSupabase (Except.error m) s = SlugOutcome.storeError m ∧
      SlugOutcome.storeError m ≠ SlugOutcome.notFound) := by
  refine ⟨?_, ?_, ?_, ?_, ?_⟩
  · intro a ha
    simp only [getBySlugMongoose] at ha
    rcases hf : store.find? (fun x => x.slug == s) with _ | b
    · rw [hf] at ha
      exact absurd ha (by simp)
    · rw [hf] at ha
      have hba : b = a := by
        cases ha
        rfl
      subst hba
      refine ⟨?_, List.mem_of_find?_eq_some hf⟩
      have := List.find?_some hf
      simpa using this
  · intro a ha
    simp only [getBySlugSupabase] at ha
    rcases hf : store.filter (fun x => x.slug == s) with _ | ⟨b, rest⟩
    · rw [hf] at ha
      exact absurd ha (by simp)
    · rcases rest with _ | ⟨c, rest'⟩
      · rw [hf] at ha
        have hba : b = a := by
          cases ha
          rfl
        subst hba
        have hb : b ∈ store.filter (fun x => x.slug == s) := by
          rw [hf]
          exact List.mem_singleton_self b
        have := List.mem_filter.mp hb
        exact ⟨by simpa using this.2, this.1⟩
      · rw [hf] at ha
        exact absurd ha (by simp)
  · simp only [getBySlugMongoose]
    rcases hf : store.find? (fun x => x.slug == s) with _ | b
    · rw [hf]
      exact Or.inr rfl
    · rw [hf]
      exact Or.inl ⟨b, rfl⟩
  · simp only [getBySlugSupabase]
    rcases hf : store.filter (fun x => x.slug == s) with _ | ⟨b, rest⟩
    · rw [hf]
      exact Or.inr rfl
    · rcases rest with _ | ⟨c, rest'⟩
      · rw [hf]
        exact Or.inl ⟨b, rfl⟩
      · rw [hf]
        exact Or.inr rfl
  · intro m
    exact ⟨rfl, rfl, by simp⟩

/-- Witness for C6 at a one-article store and its slug, plus a store
error on the mongoose path. -/
theorem c6_slug_witness :
    (cArticleA.slug = "slug-a" ∧ cArticleA ∈ [cArticleA]) ∧
    getBySlugMongoose (Except.error "connection reset") "slug-a" =
      SlugOutcome.storeError "connection reset" := by
  constructor
  · exact (c6_slug_lookup_outcomes [cArticleA] "slug-a").1 cArticleA (by decide)
  · exact ((c6_slug_lookup_outcomes [cArticleA] "slug-a").2.2.2.2 "connection reset").1

/-! ## Claim C3 -/

/-- Claim C3 as stated is false for the supabase variant: its tag-side
match is exact element membership of the formatted category name, not the
claimed case-insensitive substring test. An article tagged criminal law
(lower case) satisfies the claim's predicate for the slug criminal-law,
yet the supabase route returns nothing. -/
theorem c3_counterexample_supabase_tag_exact :
    claimCategoryPred "criminal-law" cArticleTags = true ∧
    byCategorySupabase [cArticleTags] "criminal-law" = [] := by
  decide

/-- Claim C3 amended: the mongoose category route returns exactly the
records whose category field case-insensitively contains one of the three
variants of the formatted slug, or one of whose tag entries
case-insensitively contains the formatted name itself (not its
singular/plural variants); the supabase category route replaces the
tag-side test by exact element membership of the formatted name; in both
variants, when the store's ids are distinct, the result contains no
duplicate identities. -/
theorem c3_category_match_characterization (store : List Article) (slug : String)
    (hnd : (store.map (fun a => a.id)).Nodup) :
    (∀ a, a ∈ byCategoryMongoose store slug ↔ a ∈ store ∧
      (categoryFieldMatch slug a = true ∨
        a.tags.any (fun t => ciContains t (formatSlug slug)) = true)) ∧
    (∀ a, a ∈ byCategorySupabase store slug ↔ a ∈ store ∧
      (categoryFieldMatch slug a = true ∨
        a.tags.contains (formatSlug slug) = true)) ∧
    ((byCategoryMongoose store slug).map (fun a => a.id)).Nodup ∧
    ((byCategorySupabase store slug).map (fun a => a.id)).Nodup := by
  have hinj : ∀ ⦃x⦄, x ∈ store → ∀ ⦃y⦄, y ∈ store → x.id = y.id → x = y :=
    List.inj_on_of_nodup_map hnd
  have hbase : ∀ a, a ∈ sortDesc (store.filter (categoryFieldMatch slug)) ↔
      a ∈ store ∧ categoryFieldMatch slug a = true := by
    intro a
    rw [mem_sortDesc, List.mem_filter]
  have hextra : ∀ a,
      a ∈ sortDesc (store.filter (fun x => x.tags.contains (formatSlug slug))) ↔
      a ∈ store ∧ a.tags.contains (formatSlug slug) = true := by
    intro a
    rw [mem_sortDesc, List.mem_filter]
  have hinj2 : ∀ x y,
      x ∈ sortDesc (store.filter (categoryFieldMatch slug)) ++
        sortDesc (store.filter (fun a => a.tags.contains (formatSlug slug))) →
      y ∈ sortDesc (store.filter (categoryFieldMatch slug)) ++
        sortDesc (store.filter (fun a => a.tags.contains (formatSlug slug))) →
      x.id = y.id → x = y := by
    intro x y hx hy
    have hx' : x ∈ store := by
      rcases List.mem_append.mp hx with h | h
      · exact ((hbase x).mp h).1
      · exact ((hextra x).mp h).1
    have hy' : y ∈ store := by
      rcases List.mem_append.mp hy with h | h
      · exact ((hbase y).mp h).1
      · exact ((hextra y).mp h).1
    exact fun hid => hinj hx' hy' hid
  refine ⟨?_, ?_, ?_, ?_⟩
  · intro a
    simp only [byCategoryMongoose, mem_sortDesc, List.mem_filter, Bool.or_eq_true]
  · intro a
    constructor
    · intro ha
      rcases mem_combineById_src _ _ ha with h | h
      · have := (hbase a).mp h
        exact ⟨this.1, Or.inl this.2⟩
      · have := (hextra a).mp h
        exact ⟨this.1, Or.inr this.2⟩
    · intro ⟨hmem, hp⟩
      rcases hp with hp | hp
      · exact mem_combineById_left _ _ ((hbase a).mpr ⟨hmem, hp⟩)
      · exact mem_combineById_right _ _ hinj2 ((hextra a).mpr ⟨hmem, hp⟩)
  · exact nodup_ids_sortDesc_filter store _ hnd
  · exact nodup_combineById _ _ (nodup_ids_sortDesc_filter store _ hnd)

/-- Witness for the amended C3: the criminal-law-tagged article is
returned by the mongoose route and both results are duplicate-free. -/
theorem c3_category_witness :
    cArticleTags ∈ byCategoryMongoose [cArticleTags] "criminal-law" ∧
    ((byCategorySupabase [cArticleTags] "criminal-law").map (fun a => a.id)).Nodup := by
  constructor
  · exact ((c3_category_match_characterization [cArticleTags] "criminal-law"
      (by decide)).1 cArticleTags).mpr ⟨by decide, Or.inr (by decide)⟩
  · exact (c3_category_match_characterization [cArticleTags] "criminal-law"
      (by decide)).2.2.2

/-! ## Claim C8 -/

/-- Claim C8: over any batch outcomes, the migration's success and error
counters sum to the number of source rows (a failed batch adds its full
size to the error counter), every batch is attempted (their number is the
ceiling of rows over 10), and in the concrete 30-row scenario where the
second batch's upsert is rejected the run reports 20 successes, 10 errors
and 3 batches attempted — the third batch is still processed. -/
theorem c8_batch_failure_tolerance
    (u : Nat → List DestArticle → Except String Unit) (rows : List DestArticle) :
    (runBatchCounts u rows).1 + (runBatchCounts u rows).2.1 = rows.length ∧
    (runBatchCounts u rows).2.2 = (chunks articleBatchSize rows).length ∧
    (chunks articleBatchSize rows).length = (rows.length + 9) / 10 ∧
    runBatchCounts failSecondBatch (List.replicate 30 cRow) = (20, 10, 3) := by
  have h := runBatchCountsGo_totals u (chunks articleBatchSize rows) 0
  refine ⟨?_, h.2, ?_, ?_⟩
  · rw [runBatchCounts, h.1]
    have hlen := congrArg List.length (chunks_flatten
      (by simp [articleBatchSize] : 1 ≤ articleBatchSize) rows)
    rw [List.length_flatten] at hlen
    exact hlen
  · have := chunks_length (by simp [articleBatchSize] : 1 ≤ articleBatchSize) rows
    simpa [articleBatchSize] using this
  · decide

/-! ## Claim C9 -/

/-- Claim C9: the migration batches articles 10 at a time and subscribers
20 at a time (the batches partition the rows; every batch is non-empty
and at most the batch size; all but the last are exactly the batch size),
and the two upserts use distinct conflict policies: the slug-keyed
article upsert overwrites the conflicting row, the email-keyed subscriber
upsert skips the incoming row. -/
theorem c9_batching_and_conflict_policies
    (rows : List DestArticle) (srows : List DestSubscriber) :
    (chunks articleBatchSize rows).flatten = rows ∧
    (∀ b ∈ chunks articleBatchSize rows, b.length ≤ 10 ∧ b ≠ []) ∧
    (∀ b ∈ (chunks articleBatchSize rows).dropLast, b.length = 10) ∧
    (chunks subscriberBatchSize srows).flatten = srows ∧
    (∀ b ∈ chunks subscriberBatchSize srows, b.length ≤ 20 ∧ b ≠ []) ∧
    (∀ b ∈ (chunks subscriberBatchSize srows).dropLast, b.length = 20) ∧
    (∀ a b : DestArticle, a.slug = b.slug → applyArticleBatches [b] [a] = [b]) ∧
    (∀ x y : DestSubscriber, x.email = y.email →
      applySubscriberBatches [y] [x] = [x]) := by
  refine ⟨chunks_flatten (by simp [articleBatchSize]) rows,
    chunks_mem_length (by simp [articleBatchSize]) rows,
    chunksGo_dropLast_length (by simp [articleBatchSize]) rows.length rows
      (Nat.le_refl _),
    chunks_flatten (by simp [subscriberBatchSize]) srows,
    chunks_mem_length (by simp [subscriberBatchSize]) srows,
    chunksGo_dropLast_length (by simp [subscriberBatchSize]) srows.length srows
      (Nat.le_refl _), ?_, ?_⟩
  · intro a b hab
    simp [applyArticleBatches, articleBatchSize, chunks, chunksGo,
      upsertRows, upsertOne, hab]
  · intro x y hxy
    simp [applySubscriberBatches, subscriberBatchSize, chunks, chunksGo,
      upsertRows, upsertOne, hxy]

/-- Witness for C9: overwrite keeps the incoming article row, skip keeps
the existing subscriber row, at concrete rows sharing a key. -/
theorem c9_policies_witness :
    applyArticleBatches [cRow] [cRow] = [cRow] ∧
    applySubscriberBatches [convertSubscriber cSubDoc 2] [convertSubscriber cSubDoc 1] =
      [convertSubscriber cSubDoc 1] ∧
    (List.length [cRow] ≤ 10 ∧ [cRow] ≠ ([] : List DestArticle)) := by
  refine ⟨?_, ?_, ?_⟩
  · exact (c9_batching_and_conflict_policies [cRow] []).2.2.2.2.2.2.1 cRow cRow rfl
  · exact (c9_batching_and_conflict_policies [cRow] []).2.2.2.2.2.2.2
      (convertSubscriber cSubDoc 1) (convertSubscriber cSubDoc 2) rfl
  · exact (c9_batching_and_conflict_policies [cRow] []).2.1 [cRow] (by decide)
